import Mathlib

/-!
# Verification of the GraphQL form builder core

A shallow embedding of the schema-to-field-descriptor compiler, the
dot-path unflattening of form values, the value coercion, the
required-field validation and the GraphQL argument serializer of the
form-builder component (`GraphQLFormBuilder`, the variant featuring
`coerceValues` and the enum map).

JavaScript runtime values that can sit in the form-data mapping or in
the nested argument tree are modelled by `Value`; JS truthiness, strict
equality with a string literal, `parseInt`/`parseFloat` and
`JSON.stringify` are modelled explicitly.  Plain objects are modelled as
insertion-ordered association lists (`JEntries`): property lookup takes
the unique entry with the given key, assignment replaces an existing
entry in place and otherwise appends.
-/

/-- A JavaScript runtime value as it can appear in the form-data mapping
or in a leaf of the nested argument tree: a string, a boolean, an
integral number, the number `NaN`, or a non-integral number kept as the
source text it was parsed from (claims in this development never depend
on the numeric value of a `Float` coercion). -/
inductive Value where
  | str (s : String)
  | bool (b : Bool)
  | int (n : Int)
  | nan
  | float (src : String)
deriving DecidableEq, Repr

instance : Inhabited Value := ⟨Value.nan⟩

/-- Modelled JS builtin: `ToString` on a `Value` (used by `parseInt`). -/
def jsToString : Value → String
  | .str s => s
  | .bool b => cond b "true" "false"
  | .int n => toString n
  | .nan => "NaN"
  | .float src => src

/-- Characters treated as leading whitespace by `parseInt`/`parseFloat`. -/
def jsIsSpace (c : Char) : Bool :=
  c = ' ' || c = '\t' || c = '\n' || c = '\r'

/-- Longest leading run of decimal digits, as a number, with the rest. -/
def takeDigits : List Char → Option Nat → Option Nat
  | [], acc => acc
  | c :: cs, acc =>
    if c.isDigit then
      takeDigits cs (some ((acc.getD 0) * 10 + (c.toNat - '0'.toNat)))
    else acc

/-- Modelled JS builtin: `parseInt(v, 10)`.  The argument is converted
to a string, leading whitespace is skipped, an optional sign is read and
the longest leading digit run is taken; if there is none the result is
`NaN`. -/
def jsParseInt (v : Value) : Value :=
  let cs := (jsToString v).data.dropWhile jsIsSpace
  match cs with
  | '-' :: rest =>
    match takeDigits rest none with
    | some n => .int (-(n : Int))
    | none => .nan
  | '+' :: rest =>
    match takeDigits rest none with
    | some n => .int (n : Int)
    | none => .nan
  | rest =>
    match takeDigits rest none with
    | some n => .int (n : Int)
    | none => .nan

/-- Does the character list start with a valid `parseFloat` number? -/
def jsFloatChars (c : Char) : Bool :=
  c.isDigit || c = '.' || c = 'e' || c = 'E' || c = '+' || c = '-'

/-- Modelled JS builtin: `parseFloat(v)`.  Non-integral results are kept
as the matched source text; nothing in this development depends on the
numeric value, only on totality. -/
def jsParseFloat (v : Value) : Value :=
  let cs := (jsToString v).data.dropWhile jsIsSpace
  let body := match cs with
    | '-' :: rest => rest
    | '+' :: rest => rest
    | rest => rest
  match takeDigits body none with
  | some _ => .float (String.mk (cs.takeWhile jsFloatChars))
  | none => .nan

/-- Modelled JS strict equality `v === s` between an arbitrary value and
a string literal: `true` only when `v` is a string with the same
characters (strict equality between values of different runtime types is
always `false`). -/
def jsStrictEqStr (v : Value) (s : String) : Bool :=
  match v with
  | .str t => t == s
  | _ => false

/-- JS truthiness of a `Value` (`""`, `false`, `0` and `NaN` are falsy).
For a symbolic non-integral number the mantissa is inspected: it is
truthy exactly when some significant digit is nonzero. -/
def jsValueTruthy : Value → Bool
  | .str s => !(s == "")
  | .bool b => b
  | .int n => !(n == 0)
  | .nan => false
  | .float src =>
    (src.data.takeWhile (fun c => !(c = 'e' || c = 'E'))).any
      (fun c => c.isDigit && !(c = '0'))

/-- Source: `coerceValues` — coerces a raw form value by the declared
leaf type name.  `Int` parses base-10, `Float` parses floating point,
`Boolean` is strict equality with the string `"true"`, anything else
passes through unchanged. -/
def coerceValues (val : Value) (type : String) : Value :=
  if type == "Int" then jsParseInt val
  else if type == "Float" then jsParseFloat val
  else if type == "Boolean" then .bool (jsStrictEqStr val "true")
  else val

/-! ## The nested argument tree

JS plain objects are insertion-ordered; `JEntries` is the ordered entry
list of an object, `JTree` a value of the tree (a scalar leaf or a
nested object). -/

mutual
/-- A node of the nested argument tree: a scalar leaf or an object. -/
inductive JTree where
  | leaf (v : Value)
  | obj (entries : JEntries)

/-- The insertion-ordered entries of a JS object. -/
inductive JEntries where
  | nil
  | cons (key : String) (tree : JTree) (rest : JEntries)
end

instance : Inhabited JEntries := ⟨JEntries.nil⟩

instance : Inhabited JTree := ⟨JTree.obj JEntries.nil⟩

/-- Property lookup `o[key]`: the unique entry with the given key. -/
def objGet : JEntries → String → Option JTree
  | .nil, _ => none
  | .cons k t rest, key => if k = key then some t else objGet rest key

/-- Property assignment `o[key] = t`: replaces an existing entry in
place, otherwise appends a new entry (JS insertion order). -/
def objSet : JEntries → String → JTree → JEntries
  | .nil, key, t => .cons key t .nil
  | .cons k t0 rest, key, t =>
    if k = key then .cons key t rest else .cons k t0 (objSet rest key t)

/-- JS truthiness of a tree node: objects are always truthy. -/
def jsTreeTruthy : JTree → Bool
  | .leaf v => jsValueTruthy v
  | .obj _ => true

/-- Modelled JS builtin: `key.split(".")` — splits on every dot; the
result is never empty and empty segments are kept. -/
def splitDotAux : List Char → List Char → List String
  | [], acc => [String.mk acc.reverse]
  | c :: cs, acc =>
    if c = '.' then String.mk acc.reverse :: splitDotAux cs []
    else splitDotAux cs (c :: acc)

/-- `splitOnDot s` models the JS expression `s.split(".")`. -/
def splitOnDot (s : String) : List String :=
  splitDotAux s.data []

/-- The value read by the intermediate-node step
`current[part] = current[part] || \x7b\x7d`: the existing child when it is
truthy, a fresh empty object when it is absent or falsy. -/
def childAt (o : JEntries) (p : String) : JTree :=
  match objGet o p with
  | some t => if jsTreeTruthy t then t else .obj .nil
  | none => .obj .nil

/-- Source: the per-entry walk of `buildNestedObject` — walks/creates
intermediate object nodes for every path segment but the last
(`current[part] = current[part] || \x7b\x7d`, a truthiness test, so a falsy
leaf on the way is replaced by a fresh object) and assigns the value at
the last segment.  `none` models the `TypeError` thrown (the file is a
strict-mode module) when a *truthy* leaf is found at an intermediate
segment and the next iteration assigns a property on a primitive. -/
def setSegs : JEntries → List String → Value → Option JEntries
  | o, [], _ => some o
  | o, [p], v => some (objSet o p (.leaf v))
  | o, p :: q :: rest, v =>
    match childAt o p with
    | .obj e =>
      match setSegs e (q :: rest) v with
      | some e2 => some (objSet o p (.obj e2))
      | none => none
    | .leaf _ => none

/-- Reading a dot-path back from the tree: `some v` exactly when the
path leads to the leaf `v`. -/
def getSegs : JEntries → List String → Option Value
  | _, [] => none
  | o, [p] =>
    match objGet o p with
    | some (.leaf v) => some v
    | _ => none
  | o, p :: q :: rest =>
    match objGet o p with
    | some (.obj e) => getSegs e (q :: rest)
    | _ => none

/-- Source: the entry loop of `buildNestedObject`, started from `o`. -/
def buildNestedFrom : JEntries → List (String × Value) → Option JEntries
  | o, [] => some o
  | o, (k, v) :: rest =>
    match setSegs o (splitOnDot k) v with
    | some o2 => buildNestedFrom o2 rest
    | none => none

/-- Source: `buildNestedObject` — unflattens dot-path/value pairs into a
nested object tree. -/
def buildNestedObject (entries : List (String × Value)) : Option JEntries :=
  buildNestedFrom .nil entries

/-! ## The schema type graph and the field-descriptor compiler -/

/-- A compiled field descriptor: dotted path, unwrapped leaf type name,
and whether the field's own declared type was a `NON_NULL` wrapper. -/
structure FieldDescriptor where
  name : String
  type : String
  isRequired : Bool
deriving DecidableEq, Repr

mutual
/-- A node of the schema's (acyclic) input type graph: scalar, enum,
input object, or a `NON_NULL`/`LIST` wrapper carrying one inner type. -/
inductive TypeRef where
  | scalar (name : String)
  | enumT (name : String) (values : List String)
  | inputObject (name : String) (fields : InputFields)
  | nonNull (ofType : TypeRef)
  | listT (ofType : TypeRef)

/-- The declaration-ordered field list of an input object type. -/
inductive InputFields where
  | nil
  | cons (name : String) (type : TypeRef) (rest : InputFields)
end

/-- Source: `unwrapType` — follows `ofType` links through wrapper nodes
until a non-wrapper type is reached. -/
def unwrapType : TypeRef → TypeRef
  | .nonNull t => unwrapType t
  | .listT t => unwrapType t
  | t => t

/-- `t instanceof GraphQLNonNull`: is the outermost node a `NON_NULL`
wrapper? -/
def isNonNullTy : TypeRef → Bool
  | .nonNull _ => true
  | _ => false

/-- The `name` property of a type node.  Wrapper nodes expose no name in
GraphQL (`name` is `null`); the compiler only reads names of fully
unwrapped types, so the value chosen for wrappers is never observed. -/
def typeName : TypeRef → String
  | .scalar n => n
  | .enumT n _ => n
  | .inputObject n _ => n
  | .nonNull _ => ""
  | .listT _ => ""

/-- Unwrapping never increases the size of a type node (termination
measure for the recursive field extraction). -/
theorem sizeOf_unwrapType_le : ∀ t : TypeRef, sizeOf (unwrapType t) ≤ sizeOf t
  | .scalar _ => by simp [unwrapType]
  | .enumT _ _ => by simp [unwrapType]
  | .inputObject _ _ => by simp [unwrapType]
  | .nonNull t => by
    have h := sizeOf_unwrapType_le t
    simp only [unwrapType]
    simp
    omega
  | .listT t => by
    have h := sizeOf_unwrapType_le t
    simp only [unwrapType]
    simp
    omega

/-- Source: `extractFieldsRecursively` — walks an input object's fields
in declaration order; a field whose unwrapped type is again an input
object is expanded in place (paths extended with `"." ++ name`), any
other field emits one descriptor whose `isRequired` is read from the
field's own declared type. -/
def extractFieldsRecursively (pfx : String) (fields : InputFields) : List FieldDescriptor :=
  match fields with
  | .nil => []
  | .cons fname ftype rest =>
    (match h : unwrapType ftype with
     | .inputObject _ ffs => extractFieldsRecursively (pfx ++ "." ++ fname) ffs
     | u => [{ name := pfx ++ "." ++ fname, type := typeName u, isRequired := isNonNullTy ftype }]) ++
    extractFieldsRecursively pfx rest
termination_by sizeOf fields
decreasing_by
  · have hle := sizeOf_unwrapType_le ftype
    rw [h] at hle
    simp at hle ⊢
    omega
  · simp

/-- Source: the argument loop of `handleMutationSelect` — each argument
in declaration order either expands (unwrapped input object) or emits a
single descriptor whose `isRequired` is read from the argument's own
declared type. -/
def compileArgs : List (String × TypeRef) → List FieldDescriptor
  | [] => []
  | (aname, atype) :: rest =>
    (match unwrapType atype with
     | .inputObject _ ffs => extractFieldsRecursively aname ffs
     | u => [{ name := aname, type := typeName u, isRequired := isNonNullTy atype }]) ++
    compileArgs rest

/-! ## The claim-side pre-order specification of the compiler

`specExpand`/`specFields` restate the ordering/required-ness contract of
the claim: descriptors come from a pre-order traversal, a nested input
object's fields are expanded contiguously at the parent's position, a
child path is the parent path joined with `"."` and the field name, and
`isRequired` is read off the declared type *before* unwrapping.  The
refinement theorem for C1 proves the source compiler equal to it. -/

mutual
/-- Pre-order expansion of one argument or field: wrappers are stripped
(without touching the required flag fixed from the declared type), an
input object expands to its fields in declaration order, a scalar/enum
emits one descriptor at the current path. -/
def specExpand (path : String) (req : Bool) : TypeRef → List FieldDescriptor
  | .nonNull u => specExpand path req u
  | .listT u => specExpand path req u
  | .inputObject _ fs => specFields path fs
  | .scalar n => [{ name := path, type := n, isRequired := req }]
  | .enumT n _ => [{ name := path, type := n, isRequired := req }]

/-- Contiguous pre-order expansion of an input object's fields; each
child's required flag is whether its own declared type is `NON_NULL`. -/
def specFields (path : String) : InputFields → List FieldDescriptor
  | .nil => []
  | .cons n t rest => specExpand (path ++ "." ++ n) (isNonNullTy t) t ++ specFields path rest
end

/-- Pre-order compilation of an argument list, one argument after the
other in declaration order, each argument's descriptors contiguous. -/
def specCompile : List (String × TypeRef) → List FieldDescriptor
  | [] => []
  | (n, t) :: rest => specExpand n (isNonNullTy t) t ++ specCompile rest

/-! ## Form state and operation selection -/

/-- The schema as consumed by the component: the mutation type's fields,
each with its declaration-ordered argument list. -/
def Schema := List (String × List (String × TypeRef))

/-- The mutation field lookup `schema.getMutationType()?.getFields()[name]`. -/
def Schema.getMutation : Schema → String → Option (List (String × TypeRef))
  | [], _ => none
  | (k, args) :: rest, name => if k = name then some args else Schema.getMutation rest name

/-- The component state touched by `handleMutationSelect`. -/
structure FormState where
  inputFields : List FieldDescriptor
  selectedMutation : Option String
  formData : List (String × Value)
  errors : List String
  submitStatus : String
  errorMessages : List String
deriving DecidableEq, Repr

/-- The initial component state (the `useState` defaults). -/
def initialFormState : FormState :=
  { inputFields := []
    selectedMutation := none
    formData := []
    errors := []
    submitStatus := ""
    errorMessages := [] }

/-- Source: `handleMutationSelect` — with no schema loaded, or when the
selected name has no mutation field, the function returns early and the
state is untouched; otherwise the argument list is compiled and the
descriptor set, selection and all form state are replaced. -/
def handleMutationSelect (schema : Option Schema) (st : FormState) (mutationName : String) : FormState :=
  match schema with
  | none => st
  | some sch =>
    match sch.getMutation mutationName with
    | none => st
    | some args =>
      { inputFields := compileArgs args
        selectedMutation := some mutationName
        formData := []
        errors := []
        submitStatus := ""
        errorMessages := [] }

/-! ## The argument serializer -/

/-- Lower-case hexadecimal digit (for JSON control-character escapes). -/
def hexDigit (n : Nat) : Char :=
  if n < 10 then Char.ofNat ('0'.toNat + n) else Char.ofNat ('a'.toNat + (n - 10))

/-- Modelled JS builtin: the escaping `JSON.stringify` applies inside a
string literal. -/
def jsonEscapeChar (c : Char) : String :=
  if c = '"' then "\\\""
  else if c = '\\' then "\\\\"
  else if c = '\n' then "\\n"
  else if c = '\r' then "\\r"
  else if c = '\t' then "\\t"
  else if c.toNat = 8 then "\\b"
  else if c.toNat = 12 then "\\f"
  else if c.toNat < 32 then "\\u00" ++ String.mk [hexDigit (c.toNat / 16), hexDigit (c.toNat % 16)]
  else String.mk [c]

/-- JSON escaping of a whole string. -/
def jsonEscape (s : String) : String :=
  String.join (s.data.map jsonEscapeChar)

/-- Modelled JS builtin: `JSON.stringify` on a scalar leaf.  `NaN`
serializes as `null`; a symbolic non-integral number keeps its source
text (never exercised by the claims). -/
def jsonLeafString : Value → String
  | .str s => "\"" ++ jsonEscape s ++ "\""
  | .bool b => cond b "true" "false"
  | .int n => toString n
  | .nan => "null"
  | .float src => src

mutual
/-- Modelled JS builtin: `JSON.stringify` on the nested argument tree
(no spacing, keys quoted, members comma-separated in insertion order). -/
def jsonStringify : JTree → String
  | .leaf v => jsonLeafString v
  | .obj e => "\x7b" ++ jsonMembers e ++ "\x7d"

/-- The comma-separated members of a stringified object. -/
def jsonMembers : JEntries → String
  | .nil => ""
  | .cons k t .nil => "\"" ++ jsonEscape k ++ "\":" ++ jsonStringify t
  | .cons k t rest => "\"" ++ jsonEscape k ++ "\":" ++ jsonStringify t ++ "," ++ jsonMembers rest
end

/-- A character the key pattern `[^()"]` accepts. -/
def regexKeyChar (c : Char) : Bool :=
  !(c = '(' || c = ')' || c = '"')

/-- Source: the textual rewrite `.replace(/"([^()"]+)":/g, "$1:")` that
turns quoted JSON keys into bare GraphQL keys.  A match needs a quote, a
nonempty run of characters other than `(`, `)` and `"`, a closing quote
and a colon; scanning resumes after the replacement, and on a failed
attempt the closing quote can open the next attempt.  The second
argument is `none` while scanning plainly and `some acc` after an
opening quote, with `acc` the run read so far. -/
def stripAux : List Char → Option (List Char) → List Char
  | [], none => []
  | '"' :: rest, none => stripAux rest (some [])
  | c :: rest, none => c :: stripAux rest none
  | [], some acc => '"' :: acc
  | '"' :: ':' :: tail, some acc =>
    if acc.isEmpty then '"' :: stripAux (':' :: tail) (some [])
    else acc ++ ':' :: stripAux tail none
  | '"' :: rest, some acc => '"' :: (acc ++ stripAux rest (some []))
  | c :: rest, some acc =>
    if regexKeyChar c then stripAux rest (some (acc ++ [c]))
    else '"' :: (acc ++ c :: stripAux rest none)

/-- The whole-string version of the key-unquoting rewrite. -/
def stripKeyQuotes (s : String) : String :=
  String.mk (stripAux s.data none)

/-- Source: the `argStrings` expression of `handleSubmit` — one
`name: literal` piece per top-level entry of the nested tree, joined
with `", "`, each literal being `JSON.stringify` output with quoted keys
rewritten to bare keys. -/
def argStrings : JEntries → String
  | .nil => ""
  | .cons k t .nil => k ++ ": " ++ stripKeyQuotes (jsonStringify t)
  | .cons k t rest => k ++ ": " ++ stripKeyQuotes (jsonStringify t) ++ ", " ++ argStrings rest

/-- Source: the template literal of `handleSubmit` building the
operation string (a multi-line template, kept byte-exact). -/
def mutationTemplate (selectedMutation : String) (args : String) : String :=
  "\n      mutation \x7b\n        " ++ selectedMutation ++ "(" ++ args ++
    ") \x7b\n          id\n        \x7d\n      \x7d\n    "

/-! ## Validation and submission -/

/-- Lookup in the form-data mapping (`formData[name]`); `none` is the JS
`undefined`. -/
def objGetV : List (String × Value) → String → Option Value
  | [], _ => none
  | (k, v) :: rest, key => if k = key then some v else objGetV rest key

/-- The test `value === undefined || value === ""` of `validateForm`. -/
def isMissingValue : Option Value → Bool
  | none => true
  | some (.str "") => true
  | some _ => false

/-- Does this descriptor put an entry into `newErrors`? -/
def requiredMissing (formData : List (String × Value)) (f : FieldDescriptor) : Bool :=
  f.isRequired && isMissingValue (objGetV formData f.name)

/-- Insertion of an error key into the (JS object) error record: a key
already present keeps its first position, a new key is appended. -/
def addErrorKey (ks : List String) (k : String) : List String :=
  if ks.contains k then ks else ks ++ [k]

/-- The field loop of `validateForm`, accumulating error keys. -/
def validateErrorsFrom (formData : List (String × Value)) : List String → List FieldDescriptor → List String
  | ks, [] => ks
  | ks, f :: rest =>
    validateErrorsFrom formData (if requiredMissing formData f then addErrorKey ks f.name else ks) rest

/-- Source: `validateForm` — the ordered key set of `newErrors`: one
entry per required descriptor whose value is absent or the empty
string. -/
def validateErrors (fields : List FieldDescriptor) (formData : List (String × Value)) : List String :=
  validateErrorsFrom formData [] fields

/-- Source: the return value of `validateForm`
(`Object.keys(newErrors).length === 0`). -/
def validateFormOk (fields : List FieldDescriptor) (formData : List (String × Value)) : Bool :=
  (validateErrors fields formData).length == 0

/-- Source: the `coercedFormData` reduce of `handleSubmit` — every
form-data entry is coerced by the declared type of the descriptor with
the same path; when no descriptor matches, the looked-up type is
`undefined` and `coerceValues` falls through to the identity branch, so
the value passes through unchanged. -/
def coerceFormData (inputFields : List FieldDescriptor) (formData : List (String × Value)) : List (String × Value) :=
  formData.map (fun kv =>
    (kv.1,
      match inputFields.find? (fun f => f.name == kv.1) with
      | some f => coerceValues kv.2 f.type
      | none => kv.2))

/-- Source: the pure part of `handleSubmit` — bail out without a
selected mutation or when validation fails, otherwise coerce the form
data, unflatten it and interpolate the rendered argument list into the
operation template.  `none` also models the `TypeError` escape of
`buildNestedObject` (never reached for descriptor-generated paths). -/
def handleSubmitMutation (inputFields : List FieldDescriptor) (formData : List (String × Value))
    (selectedMutation : Option String) : Option String :=
  match selectedMutation with
  | none => none
  | some m =>
    if validateFormOk inputFields formData then
      match buildNestedObject (coerceFormData inputFields formData) with
      | some nested => some (mutationTemplate m (argStrings nested))
      | none => none
    else none

/-! ## Incomparability of segment paths -/

/-- Two segment paths neither of which is a prefix (proper or not) of
the other. -/
def SegIncomp (a b : List String) : Prop :=
  ¬ a <+: b ∧ ¬ b <+: a

/-! ## Lemmas about the unflattened tree -/

theorem objGet_objSet_self : ∀ (o : JEntries) (k : String) (t : JTree),
    objGet (objSet o k t) k = some t
  | .nil, k, t => by simp [objSet, objGet]
  | .cons k' t' rest, k, t => by
    by_cases h : k' = k
    · simp [objSet, h, objGet]
    · simp [objSet, h, objGet, objGet_objSet_self rest k t]

theorem objGet_objSet_other : ∀ (o : JEntries) (k k' : String) (t : JTree),
    k' ≠ k → objGet (objSet o k t) k' = objGet o k'
  | .nil, k, k', t, h => by simp [objSet, objGet, Ne.symm h]
  | .cons k0 t0 rest, k, k', t, h => by
    by_cases h0 : k0 = k
    · subst h0
      simp [objSet, objGet, Ne.symm h]
    · simp only [objSet, if_neg h0, objGet]
      by_cases h1 : k0 = k'
      · simp [h1]
      · simp [h1, objGet_objSet_other rest k k' t h]

theorem getSegs_nil : ∀ segs : List String, getSegs .nil segs = none
  | [] => rfl
  | [_] => by simp [getSegs, objGet]
  | _ :: _ :: _ => by simp [getSegs, objGet]

theorem childAt_of_obj {o : JEntries} {p : String} {e : JEntries}
    (h : objGet o p = some (.obj e)) : childAt o p = .obj e := by
  simp [childAt, h, jsTreeTruthy]

theorem childAt_of_none {o : JEntries} {p : String}
    (h : objGet o p = none) : childAt o p = .obj .nil := by
  simp [childAt, h]

theorem setSegs_nil_isSome : ∀ (segs : List String) (v : Value),
    ∃ e, setSegs .nil segs v = some e
  | [], _ => ⟨.nil, rfl⟩
  | [p], v => ⟨objSet .nil p (.leaf v), rfl⟩
  | p :: q :: rest, v => by
    obtain ⟨e, he⟩ := setSegs_nil_isSome (q :: rest) v
    refine ⟨objSet .nil p (.obj e), ?_⟩
    simp only [setSegs, childAt_of_none (show objGet .nil p = none from rfl), he]

theorem getSegs_setSegs_same : ∀ (segs : List String) (o o' : JEntries) (v : Value),
    setSegs o segs v = some o' → segs ≠ [] → getSegs o' segs = some v
  | [], _, _, _, _, hne => absurd rfl hne
  | [p], o, o', v, h, _ => by
    simp only [setSegs, Option.some.injEq] at h
    subst h
    simp [getSegs, objGet_objSet_self]
  | p :: q :: rest, o, o', v, h, _ => by
    simp only [setSegs] at h
    cases hc : childAt o p with
    | leaf w => rw [hc] at h; exact absurd h (by simp)
    | obj e =>
      rw [hc] at h
      simp only at h
      cases hs : setSegs e (q :: rest) v with
      | none => rw [hs] at h; exact absurd h (by simp)
      | some e2 =>
        rw [hs] at h
        simp only [Option.some.injEq] at h
        subst h
        have ih := getSegs_setSegs_same (q :: rest) e e2 v hs (by simp)
        simp [getSegs, objGet_objSet_self, ih]

theorem getSegs_cons_of_childAt_obj {o : JEntries} {p : String} {e : JEntries}
    (hc : childAt o p = .obj e) (q2 : String) (qr : List String) :
    getSegs o (p :: q2 :: qr) = getSegs e (q2 :: qr) ∨
      (getSegs o (p :: q2 :: qr) = none ∧ e = .nil) := by
  cases hop : objGet o p with
  | none =>
    right
    refine ⟨by simp [getSegs, hop], ?_⟩
    have h2 := childAt_of_none hop
    rw [hc] at h2
    simpa using h2
  | some t =>
    cases t with
    | obj e0 =>
      left
      have h2 := childAt_of_obj hop
      rw [hc] at h2
      injection h2 with h3
      subst h3
      simp [getSegs, hop]
    | leaf w =>
      right
      refine ⟨by simp [getSegs, hop], ?_⟩
      simp only [childAt, hop] at hc
      by_cases hw : jsTreeTruthy (JTree.leaf w)
      · rw [if_pos hw] at hc
        exact absurd hc (by simp)
      · rw [if_neg hw] at hc
        simpa [eq_comm] using hc

theorem getSegs_setSegs_incomp : ∀ (b : List String) (o o' : JEntries) (v : Value) (q : List String),
    setSegs o b v = some o' → ¬ q <+: b → ¬ b <+: q → getSegs o' q = getSegs o q
  | [], _, _, _, q, _, _, hb => absurd List.nil_prefix hb
  | [p], o, o', v, q, h, hq, hb => by
    simp only [setSegs, Option.some.injEq] at h
    subst h
    rcases q with _ | ⟨p', _ | ⟨q2, qr⟩⟩
    · rfl
    · have hne : p' ≠ p := fun he => hq (by rw [he])
      simp [getSegs, objGet_objSet_other _ _ _ _ hne]
    · by_cases hne : p' = p
      · subst hne
        exact absurd (List.cons_prefix_cons.mpr ⟨rfl, List.nil_prefix⟩) hb
      · simp [getSegs, objGet_objSet_other _ _ _ _ hne]
  | p :: b2 :: br, o, o', v, q, h, hq, hb => by
    simp only [setSegs] at h
    cases hc : childAt o p with
    | leaf w => rw [hc] at h; simp at h
    | obj e =>
      rw [hc] at h
      simp only at h
      cases hs : setSegs e (b2 :: br) v with
      | none => rw [hs] at h; simp at h
      | some e2 =>
        rw [hs] at h
        simp only [Option.some.injEq] at h
        subst h
        rcases q with _ | ⟨p', _ | ⟨q2, qr⟩⟩
        · rfl
        · by_cases hne : p' = p
          · subst hne
            exact absurd (List.cons_prefix_cons.mpr ⟨rfl, List.nil_prefix⟩) hq
          · simp [getSegs, objGet_objSet_other _ _ _ _ hne]
        · by_cases hne : p' = p
          · subst hne
            have hq' : ¬ (q2 :: qr) <+: (b2 :: br) :=
              fun hh => hq (List.cons_prefix_cons.mpr ⟨rfl, hh⟩)
            have hb' : ¬ (b2 :: br) <+: (q2 :: qr) :=
              fun hh => hb (List.cons_prefix_cons.mpr ⟨rfl, hh⟩)
            rcases getSegs_cons_of_childAt_obj hc q2 qr with heq | ⟨hnone, henil⟩
            · rw [heq]
              have ihe := getSegs_setSegs_incomp (b2 :: br) e e2 v (q2 :: qr) hs hq' hb'
              simp [getSegs, objGet_objSet_self, ihe]
            · subst henil
              rw [hnone]
              have ihe := getSegs_setSegs_incomp (b2 :: br) .nil e2 v (q2 :: qr) hs hq' hb'
              simp [getSegs, objGet_objSet_self, ihe, getSegs_nil]
          · simp [getSegs, objGet_objSet_other _ _ _ _ hne]

theorem getSegs_setSegs_none_pres : ∀ (b : List String) (o o' : JEntries) (v : Value) (q : List String),
    setSegs o b v = some o' → q ≠ b → getSegs o q = none → getSegs o' q = none
  | [], o, o', v, q, h, _, h0 => by
    simp only [setSegs, Option.some.injEq] at h
    subst h
    exact h0
  | [p], o, o', v, q, h, hq, h0 => by
    simp only [setSegs, Option.some.injEq] at h
    subst h
    rcases q with _ | ⟨p', _ | ⟨q2, qr⟩⟩
    · rfl
    · have hne : p' ≠ p := fun he => hq (by rw [he])
      simpa [getSegs, objGet_objSet_other _ _ _ _ hne] using h0
    · by_cases hne : p' = p
      · subst hne
        simp [getSegs, objGet_objSet_self]
      · simpa [getSegs, objGet_objSet_other _ _ _ _ hne] using h0
  | p :: b2 :: br, o, o', v, q, h, hq, h0 => by
    simp only [setSegs] at h
    cases hc : childAt o p with
    | leaf w => rw [hc] at h; simp at h
    | obj e =>
      rw [hc] at h
      simp only at h
      cases hs : setSegs e (b2 :: br) v with
      | none => rw [hs] at h; simp at h
      | some e2 =>
        rw [hs] at h
        simp only [Option.some.injEq] at h
        subst h
        rcases q with _ | ⟨p', _ | ⟨q2, qr⟩⟩
        · rfl
        · by_cases hne : p' = p
          · subst hne
            simp [getSegs, objGet_objSet_self]
          · simpa [getSegs, objGet_objSet_other _ _ _ _ hne] using h0
        · by_cases hne : p' = p
          · subst hne
            have hq2 : (q2 :: qr) ≠ (b2 :: br) := fun he => hq (by rw [he])
            have h0' : getSegs e (q2 :: qr) = none := by
              rcases getSegs_cons_of_childAt_obj hc q2 qr with heq | ⟨_, henil⟩
              · rw [← heq]; exact h0
              · subst henil; exact getSegs_nil _
            have ihe := getSegs_setSegs_none_pres (b2 :: br) e e2 v (q2 :: qr) hs hq2 h0'
            simp [getSegs, objGet_objSet_self, ihe]
          · simpa [getSegs, objGet_objSet_other _ _ _ _ hne] using h0

theorem setSegs_isSome_of_prefixes_none : ∀ (b : List String) (o : JEntries) (v : Value),
    (∀ q, q ≠ [] → q ≠ b → q <+: b → getSegs o q = none) →
    ∃ o', setSegs o b v = some o'
  | [], o, v, _ => ⟨o, rfl⟩
  | [p], o, v, _ => ⟨objSet o p (.leaf v), rfl⟩
  | p :: b2 :: br, o, v, hpre => by
    cases hop : objGet o p with
    | some t =>
      cases t with
      | leaf w =>
        exfalso
        have hcontra := hpre [p] (by simp) (by simp)
          (List.cons_prefix_cons.mpr ⟨rfl, List.nil_prefix⟩)
        simp [getSegs, hop] at hcontra
      | obj e0 =>
        have hc := childAt_of_obj hop
        have hrec : ∀ q, q ≠ [] → q ≠ (b2 :: br) → q <+: (b2 :: br) → getSegs e0 q = none := by
          intro q hq0 hqb hqp
          have hpq := hpre (p :: q) (by simp) (by simp [hqb])
            (List.cons_prefix_cons.mpr ⟨rfl, hqp⟩)
          rcases q with _ | ⟨q1, qr⟩
          · exact absurd rfl hq0
          · simpa [getSegs, hop] using hpq
        obtain ⟨e2, hs⟩ := setSegs_isSome_of_prefixes_none (b2 :: br) e0 v hrec
        exact ⟨objSet o p (.obj e2), by simp [setSegs, hc, hs]⟩
    | none =>
      have hc := childAt_of_none hop
      have hrec : ∀ q, q ≠ [] → q ≠ (b2 :: br) → q <+: (b2 :: br) → getSegs JEntries.nil q = none :=
        fun q _ _ _ => getSegs_nil q
      obtain ⟨e2, hs⟩ := setSegs_isSome_of_prefixes_none (b2 :: br) .nil v hrec
      exact ⟨objSet o p (.obj e2), by simp [setSegs, hc, hs]⟩

theorem splitDotAux_ne_nil : ∀ (cs acc : List Char), splitDotAux cs acc ≠ []
  | [], acc => by simp [splitDotAux]
  | c :: cs, acc => by
    by_cases h : c = '.'
    · simp [splitDotAux, h]
    · simpa [splitDotAux, h] using splitDotAux_ne_nil cs (c :: acc)

theorem splitOnDot_ne_nil (s : String) : splitOnDot s ≠ [] :=
  splitDotAux_ne_nil s.data []

theorem buildNestedFrom_inv : ∀ (pend : List (String × Value)) (o : JEntries) (SM : List (List String × Value)),
    (∀ kv ∈ SM, getSegs o kv.1 = some kv.2) →
    (∀ q, q ∉ SM.map Prod.fst → getSegs o q = none) →
    List.Pairwise SegIncomp (SM.map Prod.fst ++ pend.map (fun kv => splitOnDot kv.1)) →
    ∃ t, buildNestedFrom o pend = some t ∧
      (∀ kv ∈ SM ++ pend.map (fun kv => (splitOnDot kv.1, kv.2)), getSegs t kv.1 = some kv.2) ∧
      (∀ q, q ∉ (SM ++ pend.map (fun kv => (splitOnDot kv.1, kv.2))).map Prod.fst →
        getSegs t q = none)
  | [], o, SM, h1, h2, _ => ⟨o, rfl, by simpa using h1, by simpa using h2⟩
  | (k, v) :: rest, o, SM, h1, h2, hfree => by
    have hSMb : ∀ s ∈ SM.map Prod.fst, SegIncomp s (splitOnDot k) := by
      intro s hs
      exact (List.pairwise_append.mp (by simpa using hfree)).2.2 s hs (splitOnDot k) (by simp)
    have hbnil : splitOnDot k ≠ [] := splitOnDot_ne_nil k
    obtain ⟨o2, ho2⟩ : ∃ o2, setSegs o (splitOnDot k) v = some o2 := by
      apply setSegs_isSome_of_prefixes_none
      intro q hq0 hqb hqp
      apply h2
      intro hqin
      exact (hSMb q hqin).1 hqp
    have h1' : ∀ kv ∈ SM ++ [(splitOnDot k, v)], getSegs o2 kv.1 = some kv.2 := by
      intro kv hkv
      rcases List.mem_append.mp hkv with hkv | hkv
      · have hinc : SegIncomp kv.1 (splitOnDot k) := hSMb kv.1 (List.mem_map_of_mem _ hkv)
        rw [getSegs_setSegs_incomp (splitOnDot k) o o2 v kv.1 ho2 hinc.1 hinc.2]
        exact h1 kv hkv
      · have hkv' : kv = (splitOnDot k, v) := by simpa using hkv
        subst hkv'
        exact getSegs_setSegs_same (splitOnDot k) o o2 v ho2 hbnil
    have h2' : ∀ q, q ∉ (SM ++ [(splitOnDot k, v)]).map Prod.fst → getSegs o2 q = none := by
      intro q hq
      rw [List.map_append, List.mem_append] at hq
      push_neg at hq
      obtain ⟨hq1, hq2⟩ := hq
      exact getSegs_setSegs_none_pres (splitOnDot k) o o2 v q ho2 (by simpa using hq2) (h2 q hq1)
    have hfree' : List.Pairwise SegIncomp
        ((SM ++ [(splitOnDot k, v)]).map Prod.fst ++ rest.map (fun kv => splitOnDot kv.1)) := by
      simpa [List.map_append, List.append_assoc] using hfree
    obtain ⟨t, hbuild, ht1, ht2⟩ := buildNestedFrom_inv rest o2 (SM ++ [(splitOnDot k, v)]) h1' h2' hfree'
    refine ⟨t, ?_, ?_, ?_⟩
    · simp only [buildNestedFrom, ho2]
      exact hbuild
    · intro kv hkv
      apply ht1
      simpa [List.append_assoc] using hkv
    · intro q hq
      apply ht2
      simpa [List.append_assoc] using hq

/-- C2: for every path/value list whose keys are unique and in which no
key's segment path is a prefix of another's, `buildNestedObject`
succeeds, reading every original path back from the tree returns exactly
the original value, and reading any other path returns nothing — the
unflattened tree reproduces the value mapping with no leaf dropped,
none altered, and no extra entry. -/
theorem C2_unflatten_roundtrip (entries : List (String × Value))
    (hu : (entries.map Prod.fst).Nodup)
    (hp : ∀ k1 ∈ entries.map Prod.fst, ∀ k2 ∈ entries.map Prod.fst,
      k1 ≠ k2 → ¬ splitOnDot k1 <+: splitOnDot k2) :
    ∃ t, buildNestedObject entries = some t ∧
      (∀ k v, (k, v) ∈ entries → getSegs t (splitOnDot k) = some v) ∧
      (∀ q : List String, (∀ k ∈ entries.map Prod.fst, splitOnDot k ≠ q) →
        getSegs t q = none) := by
  have hpw : List.Pairwise SegIncomp (entries.map (fun kv => splitOnDot kv.1)) := by
    have h0 : (entries.map Prod.fst).Pairwise
        (fun a b => SegIncomp (splitOnDot a) (splitOnDot b)) := by
      refine List.Pairwise.imp_of_mem ?_ hu
      intro a b ha hb hne
      exact ⟨hp a ha b hb hne, hp b hb a ha (Ne.symm hne)⟩
    rw [List.pairwise_map]
    rw [List.pairwise_map] at h0
    exact h0
  obtain ⟨t, hb, h1, h2⟩ := buildNestedFrom_inv entries .nil []
    (by simp) (fun q _ => getSegs_nil q) (by simpa using hpw)
  refine ⟨t, hb, ?_, ?_⟩
  · intro k v hkv
    exact h1 (splitOnDot k, v)
      (by simpa using List.mem_map_of_mem (fun kv => (splitOnDot kv.1, kv.2)) hkv)
  · intro q hq
    refine h2 q ?_
    intro hin
    simp only [List.nil_append, List.map_map, List.mem_map] at hin
    obtain ⟨kv, hkv, hkveq⟩ := hin
    exact hq kv.1 (List.mem_map_of_mem _ hkv) hkveq

theorem C2_unflatten_roundtrip_witness :
    ∃ t, buildNestedObject [("input.title", Value.str "Hello"), ("input.published", Value.bool false)] = some t ∧
      (∀ k v, (k, v) ∈ [("input.title", Value.str "Hello"), ("input.published", Value.bool false)] →
        getSegs t (splitOnDot k) = some v) ∧
      (∀ q : List String,
        (∀ k ∈ [("input.title", Value.str "Hello"), ("input.published", Value.bool false)].map Prod.fst,
          splitOnDot k ≠ q) → getSegs t q = none) :=
  C2_unflatten_roundtrip _ (by decide) (by decide)

theorem setSegs_falsy_drop : ∀ (ks more : List String) (v w : Value) (t1 : JEntries),
    ks ≠ [] → more ≠ [] → jsValueTruthy v = false →
    setSegs .nil ks v = some t1 →
    getSegs t1 ks = some v ∧
      ∃ t2, setSegs t1 (ks ++ more) w = some t2 ∧
        getSegs t2 ks = none ∧ getSegs t2 (ks ++ more) = some w
  | [], _, _, _, _, hks, _, _, _ => absurd rfl hks
  | [p], more, v, w, t1, _, hmore, hfalsy, h => by
    simp only [setSegs, Option.some.injEq] at h
    subst h
    rcases more with _ | ⟨m1, mr⟩
    · exact absurd rfl hmore
    · constructor
      · simp [getSegs, objGet, objSet]
      · obtain ⟨e2, he2⟩ := setSegs_nil_isSome (m1 :: mr) w
        refine ⟨objSet (objSet .nil p (.leaf v)) p (.obj e2), ?_, ?_, ?_⟩
        · have hchild : childAt (objSet .nil p (.leaf v)) p = .obj .nil := by
            simp [childAt, objGet_objSet_self, jsTreeTruthy, hfalsy]
          simp [setSegs, hchild, he2]
        · simp [getSegs, objGet_objSet_self]
        · have hget := getSegs_setSegs_same (m1 :: mr) .nil e2 w he2 (by simp)
          simp [getSegs, objGet_objSet_self, hget]
  | p :: k1 :: kr, more, v, w, t1, _, hmore, hfalsy, h => by
    simp only [setSegs, childAt_of_none (show objGet .nil p = none from rfl)] at h
    try simp only at h
    cases he1 : setSegs .nil (k1 :: kr) v with
    | none => rw [he1] at h; simp at h
    | some e1 =>
      rw [he1] at h
      simp only [Option.some.injEq] at h
      subst h
      obtain ⟨hread, t2', hs2', hdrop', hget'⟩ :=
        setSegs_falsy_drop (k1 :: kr) more v w e1 (by simp) hmore hfalsy he1
      have ht1p : objGet (objSet .nil p (.obj e1)) p = some (.obj e1) := objGet_objSet_self _ _ _
      have hchild : childAt (objSet .nil p (.obj e1)) p = .obj e1 := childAt_of_obj ht1p
      refine ⟨?_, objSet (objSet .nil p (.obj e1)) p (.obj t2'), ?_, ?_, ?_⟩
      · simp [getSegs, ht1p, hread]
      · have happ : (p :: k1 :: kr) ++ more = p :: k1 :: (kr ++ more) := rfl
        rw [happ]
        have hs2'' : setSegs e1 (k1 :: (kr ++ more)) w = some t2' := hs2'
        simp [setSegs, hchild, hs2'']
      · simp [getSegs, objGet_objSet_self, hdrop']
      · have happ : (p :: k1 :: kr) ++ more = p :: k1 :: (kr ++ more) := rfl
        rw [happ]
        have hget'' : getSegs t2' (k1 :: (kr ++ more)) = some w := hget'
        simp [getSegs, objGet_objSet_self, hget'']

/-- C10: when the input to `buildNestedObject` has an entry whose path
is a proper prefix of a later entry's path and the earlier value is
falsy, the walk for the later path replaces the earlier leaf with a
fresh object node (truthiness-based create-if-absent), so the earlier
value is silently dropped from the tree: reading the earlier path back
gives nothing, while the later path holds its value. -/
theorem C10_falsy_prefix_value_dropped (k k2 : String) (more : List String) (v w : Value)
    (hsplit : splitOnDot k2 = splitOnDot k ++ more) (hmore : more ≠ [])
    (hfalsy : jsValueTruthy v = false) :
    ∃ t2, buildNestedObject [(k, v), (k2, w)] = some t2 ∧
      getSegs t2 (splitOnDot k) = none ∧ getSegs t2 (splitOnDot k2) = some w := by
  obtain ⟨t1, ht1⟩ := setSegs_nil_isSome (splitOnDot k) v
  obtain ⟨-, t2, hs2, hdrop, hget⟩ :=
    setSegs_falsy_drop (splitOnDot k) more v w t1 (splitOnDot_ne_nil k) hmore hfalsy ht1
  refine ⟨t2, ?_, hdrop, ?_⟩
  · simp only [buildNestedObject, buildNestedFrom, ht1]
    rw [hsplit]
    simp only [hs2, buildNestedFrom]
  · rw [hsplit]
    exact hget

theorem C10_falsy_prefix_value_dropped_witness :
    ∃ t2, buildNestedObject [("a.b", Value.str ""), ("a.b.c", Value.int 7)] = some t2 ∧
      getSegs t2 (splitOnDot "a.b") = none ∧ getSegs t2 (splitOnDot "a.b.c") = some (Value.int 7) :=
  C10_falsy_prefix_value_dropped "a.b" "a.b.c" ["c"] (Value.str "") (Value.int 7)
    (by decide) (by decide) (by decide)

/-- C9: intermediate-node creation during unflatten is create-if-absent,
so a segment that already holds a mapping node reuses that node
unchanged — the walk continues inside it and only its updated version is
written back — and consequently two paths sharing a head segment end up
under one single shared entry for that segment, never two. -/
theorem C9_shared_intermediate_node :
    (∀ (o : JEntries) (p q : String) (rest : List String) (e : JEntries) (v : Value),
      objGet o p = some (.obj e) →
      setSegs o (p :: q :: rest) v =
        (setSegs e (q :: rest) v).map (fun e2 => objSet o p (.obj e2))) ∧
    (∀ (kA kB p : String) (r1 r2 : List String) (v1 v2 : Value) (e1 e2 : JEntries),
      splitOnDot kA = p :: r1 → splitOnDot kB = p :: r2 → r1 ≠ [] → r2 ≠ [] →
      setSegs .nil r1 v1 = some e1 → setSegs e1 r2 v2 = some e2 →
      buildNestedObject [(kA, v1), (kB, v2)] = some (.cons p (.obj e2) .nil)) := by
  constructor
  · intro o p q rest e v hget
    cases hs : setSegs e (q :: rest) v with
    | none => simp [setSegs, childAt_of_obj hget, hs]
    | some e2 => simp [setSegs, childAt_of_obj hget, hs]
  · intro kA kB p r1 r2 v1 v2 e1 e2 h1 h2 hr1 hr2 he1 he2
    rcases r1 with _ | ⟨a, r1'⟩
    · exact absurd rfl hr1
    rcases r2 with _ | ⟨b, r2'⟩
    · exact absurd rfl hr2
    have hstep1 : setSegs .nil (splitOnDot kA) v1 = some (.cons p (.obj e1) .nil) := by
      rw [h1]
      simp [setSegs, childAt_of_none (show objGet .nil p = none from rfl), he1, objSet]
    have ht1p : objGet (JEntries.cons p (.obj e1) .nil) p = some (.obj e1) := by
      simp [objGet]
    have hstep2 : setSegs (JEntries.cons p (.obj e1) .nil) (splitOnDot kB) v2 =
        some (.cons p (.obj e2) .nil) := by
      rw [h2]
      simp [setSegs, childAt_of_obj ht1p, he2, objSet]
    simp only [buildNestedObject, buildNestedFrom, hstep1, hstep2]

theorem C9_shared_intermediate_node_witness :
    (setSegs (.cons "a" (.obj (.cons "b" (.leaf (Value.int 1)) .nil)) .nil)
        ("a" :: "c" :: []) (Value.int 2) =
      (setSegs (.cons "b" (.leaf (Value.int 1)) .nil) ("c" :: []) (Value.int 2)).map
        (fun e2 => objSet (.cons "a" (.obj (.cons "b" (.leaf (Value.int 1)) .nil)) .nil) "a" (.obj e2))) ∧
    buildNestedObject [("a.b", Value.int 1), ("a.c", Value.int 2)] =
      some (.cons "a" (.obj (.cons "b" (.leaf (Value.int 1)) (.cons "c" (.leaf (Value.int 2)) .nil))) .nil) :=
  ⟨C9_shared_intermediate_node.1 _ "a" "c" [] _ (Value.int 2) rfl,
   C9_shared_intermediate_node.2 "a.b" "a.c" "a" ["b"] ["c"] (Value.int 1) (Value.int 2)
     (.cons "b" (.leaf (Value.int 1)) .nil)
     (.cons "b" (.leaf (Value.int 1)) (.cons "c" (.leaf (Value.int 2)) .nil))
     (by decide) (by decide) (by decide) (by decide) rfl rfl⟩

/-! ## Coercion claims -/

/-- C5: with declared leaf type `"Boolean"`, coercion maps exactly the
string `"true"` to boolean true and every other string to boolean false;
in particular `"true" ↦ true`, `"false" ↦ false`, `"" ↦ false` and
`"maybe" ↦ false`. -/
theorem C5_boolean_coercion_asymmetry :
    (∀ s : String, coerceValues (.str s) "Boolean" = .bool (s == "true")) ∧
    coerceValues (.str "true") "Boolean" = .bool true ∧
    coerceValues (.str "false") "Boolean" = .bool false ∧
    coerceValues (.str "") "Boolean" = .bool false ∧
    coerceValues (.str "maybe") "Boolean" = .bool false :=
  ⟨fun _ => rfl, by decide, by decide, by decide, by decide⟩

theorem C4_counterexample :
    coerceValues (.bool true) "Boolean" = .bool false ∧
      coerceValues (.bool true) "Boolean" ≠ .bool true := by
  decide

/-- C4 (amended): a value that is already a genuine boolean does not
pass through `coerceValues` unchanged — the `"Boolean"` branch is strict
equality with the string `"true"`, which is false for every non-string,
so both genuine booleans coerce to boolean false; in particular
`coerce(true, "Boolean") = false`. -/
theorem C4_boolean_input_coerces_to_false :
    ∀ b : Bool, coerceValues (.bool b) "Boolean" = .bool false :=
  fun _ => rfl

/-! ## Compiler refinement lemmas -/

theorem unwrapType_no_wrapper : ∀ t : TypeRef,
    (∀ u, unwrapType t ≠ .nonNull u) ∧ ∀ u, unwrapType t ≠ .listT u
  | .scalar _ => by simp [unwrapType]
  | .enumT _ _ => by simp [unwrapType]
  | .inputObject _ _ => by simp [unwrapType]
  | .nonNull t => by simpa [unwrapType] using unwrapType_no_wrapper t
  | .listT t => by simpa [unwrapType] using unwrapType_no_wrapper t

theorem specExpand_unwrapType : ∀ (t : TypeRef) (path : String) (req : Bool),
    specExpand path req (unwrapType t) = specExpand path req t
  | .scalar _, _, _ => by simp [unwrapType]
  | .enumT _ _, _, _ => by simp [unwrapType]
  | .inputObject _ _, _, _ => by simp [unwrapType]
  | .nonNull u, path, req => by
    simp only [unwrapType]
    rw [specExpand_unwrapType u path req]
    simp [specExpand]
  | .listT u, path, req => by
    simp only [unwrapType]
    rw [specExpand_unwrapType u path req]
    simp [specExpand]

theorem extract_eq_specFields : ∀ (pfx : String) (fields : InputFields),
    extractFieldsRecursively pfx fields = specFields pfx fields := by
  intro pfx fields
  induction pfx, fields using extractFieldsRecursively.induct with
  | case1 pfx => simp [extractFieldsRecursively, specFields]
  | case2 pfx fname ftype rest ih1 ih2 =>
    rw [extractFieldsRecursively, ih2]
    simp only [specFields]
    congr 1
    rw [← specExpand_unwrapType ftype (pfx ++ "." ++ fname) (isNonNullTy ftype)]
    split
    · rename_i nm ffs heq
      rw [heq]
      simp only [specExpand]
      exact ih1 nm ffs heq
    · rename_i hno
      cases hu : unwrapType ftype with
      | scalar n => simp [specExpand, typeName]
      | enumT n vs => simp [specExpand, typeName]
      | inputObject n fs => exact absurd hu (fun hh => hno n fs hh)
      | nonNull w => exact absurd hu ((unwrapType_no_wrapper ftype).1 w)
      | listT w => exact absurd hu ((unwrapType_no_wrapper ftype).2 w)

/-- C1: the compiler emits descriptors in a pre-order traversal of the
argument structure — arguments in declaration order, a nested input
object's fields expanded contiguously at the parent argument's position
before the next argument, child paths formed as parent path ++ "." ++
field name, and `isRequired` true exactly when the declared type before
unwrapping is a `NON_NULL` wrapper — stated as equality with the
specification-side pre-order compiler `specCompile`. -/
theorem C1_compile_is_preorder_traversal : ∀ args : List (String × TypeRef),
    compileArgs args = specCompile args
  | [] => rfl
  | (aname, atype) :: rest => by
    have hrest := C1_compile_is_preorder_traversal rest
    simp only [compileArgs, specCompile]
    rw [hrest]
    congr 1
    rw [← specExpand_unwrapType atype aname (isNonNullTy atype)]
    cases hu : unwrapType atype with
    | scalar n => simp [specExpand, typeName]
    | enumT n vs => simp [specExpand, typeName]
    | inputObject n fs => simp [specExpand, extract_eq_specFields]
    | nonNull w => exact absurd hu ((unwrapType_no_wrapper atype).1 w)
    | listT w => exact absurd hu ((unwrapType_no_wrapper atype).2 w)

/-! ## Operation selection claims -/

/-- C7 (amended): selecting an operation name that has no mutation field
in the schema is a no-op — the early return leaves the entire form
state, including the current descriptor sequence, unchanged; the
descriptor sequence is therefore empty after such a selection only when
it was already empty before it (as in the initial state). -/
theorem C7_unknown_selection_is_noop (sch : Schema) (st : FormState) (name : String)
    (h : sch.getMutation name = none) :
    handleMutationSelect (some sch) st name = st := by
  simp [handleMutationSelect, h]

theorem C7_counterexample :
    (handleMutationSelect (some [("updatePost", [("id", TypeRef.nonNull (.scalar "Int"))])])
      (handleMutationSelect (some [("updatePost", [("id", TypeRef.nonNull (.scalar "Int"))])])
        initialFormState "updatePost")
      "nonexistent").inputFields = [⟨"id", "Int", true⟩] ∧
    ([⟨"id", "Int", true⟩] : List FieldDescriptor) ≠ [] := by
  exact ⟨rfl, by decide⟩

theorem C7_unknown_selection_is_noop_witness :
    handleMutationSelect (some [("updatePost", [("id", TypeRef.nonNull (.scalar "Int"))])])
      initialFormState "nonexistent" = initialFormState :=
  C7_unknown_selection_is_noop _ _ _ rfl

/-! ## Validation lemmas and claims -/

theorem mem_addErrorKey (ks : List String) (k p : String) :
    p ∈ addErrorKey ks k ↔ p ∈ ks ∨ p = k := by
  by_cases hk : k ∈ ks
  · have h : ks.contains k = true := by simpa using hk
    simp only [addErrorKey, if_pos h]
    constructor
    · exact Or.inl
    · rintro (hp | rfl)
      · exact hp
      · exact hk
  · have h : ¬ ks.contains k = true := by simpa using hk
    simp only [addErrorKey, if_neg h, List.mem_append, List.mem_singleton]

theorem nodup_addErrorKey (ks : List String) (k : String) (h : ks.Nodup) :
    (addErrorKey ks k).Nodup := by
  by_cases hk : k ∈ ks
  · have hc : ks.contains k = true := by simpa using hk
    simpa only [addErrorKey, if_pos hc] using h
  · have hc : ¬ ks.contains k = true := by simpa using hk
    rw [addErrorKey, if_neg hc]
    exact h.append (List.nodup_singleton k) (by simpa [List.disjoint_singleton] using hk)

theorem mem_validateErrorsFrom (fd : List (String × Value)) :
    ∀ (fields : List FieldDescriptor) (ks : List String) (p : String),
      p ∈ validateErrorsFrom fd ks fields ↔
        p ∈ ks ∨ ∃ f ∈ fields, f.name = p ∧ requiredMissing fd f = true
  | [], ks, p => by simp [validateErrorsFrom]
  | f :: rest, ks, p => by
    simp only [validateErrorsFrom]
    by_cases h : requiredMissing fd f = true
    · rw [if_pos h, mem_validateErrorsFrom fd rest _ p, mem_addErrorKey]
      constructor
      · rintro ((hp | rfl) | ⟨g, hg, hgp, hgm⟩)
        · exact Or.inl hp
        · exact Or.inr ⟨f, by simp, rfl, h⟩
        · exact Or.inr ⟨g, by simp [hg], hgp, hgm⟩
      · rintro (hp | ⟨g, hg, hgp, hgm⟩)
        · exact Or.inl (Or.inl hp)
        · rcases List.mem_cons.mp hg with rfl | hg'
          · exact Or.inl (Or.inr hgp.symm)
          · exact Or.inr ⟨g, hg', hgp, hgm⟩
    · rw [if_neg h, mem_validateErrorsFrom fd rest _ p]
      constructor
      · rintro (hp | ⟨g, hg, hgp, hgm⟩)
        · exact Or.inl hp
        · exact Or.inr ⟨g, by simp [hg], hgp, hgm⟩
      · rintro (hp | ⟨g, hg, hgp, hgm⟩)
        · exact Or.inl hp
        · rcases List.mem_cons.mp hg with rfl | hg'
          · exact absurd hgm h
          · exact Or.inr ⟨g, hg', hgp, hgm⟩

theorem nodup_validateErrorsFrom (fd : List (String × Value)) :
    ∀ (fields : List FieldDescriptor) (ks : List String), ks.Nodup →
      (validateErrorsFrom fd ks fields).Nodup
  | [], _, h => h
  | f :: rest, ks, h => by
    simp only [validateErrorsFrom]
    by_cases hm : requiredMissing fd f = true
    · rw [if_pos hm]
      exact nodup_validateErrorsFrom fd rest _ (nodup_addErrorKey ks f.name h)
    · rw [if_neg hm]
      exact nodup_validateErrorsFrom fd rest _ h

theorem eq_singleton_of_nodup : ∀ {l : List String} {a : String},
    l.Nodup → a ∈ l → (∀ x ∈ l, x = a) → l = [a] := by
  intro l a hnd hmem hall
  cases l with
  | nil => cases hmem
  | cons b rest =>
    have hb := hall b (by simp)
    subst hb
    cases rest with
    | nil => rfl
    | cons c rs =>
      have hc := hall c (by simp)
      subst hc
      simp at hnd

/-- C6: validation records an error for a path exactly when some
descriptor with that path is required and its value is absent or the
empty string; the returned flag reports a failure exactly when such a
descriptor exists; and when exactly one required path is missing while
every other required path is present, the error set is exactly that one
path. -/
theorem C6_validate_required_missing (fields : List FieldDescriptor) (fd : List (String × Value)) :
    (∀ p, p ∈ validateErrors fields fd ↔
      ∃ f ∈ fields, f.name = p ∧ (f.isRequired = true ∧ isMissingValue (objGetV fd f.name) = true)) ∧
    (validateFormOk fields fd = false ↔
      ∃ f ∈ fields, f.isRequired = true ∧ isMissingValue (objGetV fd f.name) = true) ∧
    (∀ f0 ∈ fields, f0.isRequired = true → isMissingValue (objGetV fd f0.name) = true →
      (∀ f ∈ fields, f.isRequired = true → isMissingValue (objGetV fd f.name) = true →
        f.name = f0.name) →
      validateErrors fields fd = [f0.name]) := by
  have hmem : ∀ p, p ∈ validateErrors fields fd ↔
      ∃ f ∈ fields, f.name = p ∧ (f.isRequired = true ∧ isMissingValue (objGetV fd f.name) = true) := by
    intro p
    rw [validateErrors, mem_validateErrorsFrom]
    simp [requiredMissing, Bool.and_eq_true]
  refine ⟨hmem, ?_, ?_⟩
  · rw [validateFormOk]
    constructor
    · intro hfalse
      have hne : validateErrors fields fd ≠ [] := by
        intro hnil
        rw [hnil] at hfalse
        simp at hfalse
      obtain ⟨p, hp⟩ : ∃ p, p ∈ validateErrors fields fd := by
        cases he : validateErrors fields fd with
        | nil => exact absurd he hne
        | cons a l => exact ⟨a, by simp [he]⟩
      obtain ⟨f, hf, _, hreq, hmiss⟩ := (hmem p).mp hp
      exact ⟨f, hf, hreq, hmiss⟩
    · rintro ⟨f, hf, hreq, hmiss⟩
      have hp : f.name ∈ validateErrors fields fd := (hmem f.name).mpr ⟨f, hf, rfl, hreq, hmiss⟩
      cases he : validateErrors fields fd with
      | nil => rw [he] at hp; cases hp
      | cons a l => simp [he]
  · intro f0 hf0 hreq0 hmiss0 huni
    refine eq_singleton_of_nodup ?_ ?_ ?_
    · exact nodup_validateErrorsFrom fd fields [] List.nodup_nil
    · exact (hmem f0.name).mpr ⟨f0, hf0, rfl, hreq0, hmiss0⟩
    · intro x hx
      obtain ⟨f, hf, hname, hreq, hmiss⟩ := (hmem x).mp hx
      rw [← hname]
      exact huni f hf hreq hmiss

theorem C6_validate_required_missing_witness :
    validateErrors [⟨"a", "String", true⟩, ⟨"b", "Int", false⟩, ⟨"c", "String", true⟩]
      [("a", Value.str "x")] = ["c"] :=
  (C6_validate_required_missing
      [⟨"a", "String", true⟩, ⟨"b", "Int", false⟩, ⟨"c", "String", true⟩]
      [("a", Value.str "x")]).2.2
    ⟨"c", "String", true⟩ (by decide) (by decide) (by decide) (by decide)

/-! ## Serializer claims -/

/-- C3: at the enum scenario (argument `status : Status!`, value the
token `PUBLISHED`), the serializer renders the argument as
`status: "PUBLISHED"` — a quoted string literal, because the value is
`JSON.stringify`-ed and the key-unquoting rewrite never touches values —
not the bare enum token `status: PUBLISHED` the specification requires:
enum literals are not distinguished from string literals. -/
theorem C3_enum_rendered_quoted :
    handleSubmitMutation [⟨"status", "Status", true⟩] [("status", Value.str "PUBLISHED")]
        (some "setStatus") =
      some ("\n      mutation \x7b\n        setStatus(status: \"PUBLISHED\") \x7b\n          id\n        \x7d\n      \x7d\n    ") ∧
    argStrings (.cons "status" (.leaf (Value.str "PUBLISHED")) .nil) = "status: \"PUBLISHED\"" ∧
    "status: \"PUBLISHED\"" ≠ "status: PUBLISHED" :=
  ⟨rfl, rfl, by decide⟩

theorem C8_counterexample :
    handleSubmitMutation [⟨"input.title", "String", true⟩, ⟨"input.published", "Boolean", false⟩]
        [("input.title", Value.str "Hello")] (some "createPost") ≠
      some "mutation \x7b createPost(input: \x7btitle: \"Hello\"\x7d) \x7b id \x7d \x7d" := by
  decide

/-- C8 (amended): compiling `createPost(input: CreatePostInput!)` with
`CreatePostInput \x7b title: String!, published: Boolean \x7d` yields exactly
the descriptors `input.title` (required) and `input.published`
(optional); with `title = "Hello"` and `published` unset the nested
literal contains only `title` — the absent optional field is omitted,
not rendered as null — and serializing yields the multi-line operation
template whose argument list is `input: \x7btitle:"Hello"\x7d` (the
JSON-stringified literal carries no space after the inner colon). -/
theorem C8_createPost_scenario :
    compileArgs [("input", TypeRef.nonNull (.inputObject "CreatePostInput"
        (.cons "title" (.nonNull (.scalar "String"))
          (.cons "published" (.scalar "Boolean") .nil))))] =
      [⟨"input.title", "String", true⟩, ⟨"input.published", "Boolean", false⟩] ∧
    buildNestedObject (coerceFormData
        [⟨"input.title", "String", true⟩, ⟨"input.published", "Boolean", false⟩]
        [("input.title", Value.str "Hello")]) =
      some (.cons "input" (.obj (.cons "title" (.leaf (Value.str "Hello")) .nil)) .nil) ∧
    handleSubmitMutation [⟨"input.title", "String", true⟩, ⟨"input.published", "Boolean", false⟩]
        [("input.title", Value.str "Hello")] (some "createPost") =
      some ("\n      mutation \x7b\n        createPost(input: \x7btitle:\"Hello\"\x7d) \x7b\n          id\n        \x7d\n      \x7d\n    ") := by
  refine ⟨?_, rfl, rfl⟩
  simp [compileArgs, extractFieldsRecursively, unwrapType, typeName, isNonNullTy]
